import Mathlib

/-!
A verification development for the duty-to-forwarding reconciliation core of
`ghi.py` (duty roster, remote holiday-schedule parsing, and the reconciliation
algorithm of `WebexApi.Upload`).

Modelling conventions for the shallow embedding:

* Calendar dates (`datetime.date`) are modelled as natural numbers counting
  days from an arbitrary epoch; `date + timedelta(days=1)` becomes `date + 1`.
* Timestamps (`datetime.datetime`) are modelled as natural numbers counting
  minutes from midnight of the epoch day: `date * 1440 + minuteOfDay`.  The
  two shift start times 10:00 and 20:00 are the minutes 600 and 1200, and the
  remote wire format's `startDate`/`startTime` (resp. `endDate`/`endTime`)
  pair is the single timestamp `startTs` (resp. `endTs`); the `HH:MM` string
  of a timestamp is its value mod 1440 and the `YYYY-MM-DD` string is its
  value div 1440.
* The `%Y-%m-%d` (and `%d.%m.%Y`) renderings of a date are modelled by the
  canonical decimal rendering of the day number; both are injective.
* Python dicts are modelled as association lists in insertion order;
  `collections.defaultdict(list)` updates become `extendAt`, and remote
  mutation calls (`Delete`/`Post`) are recorded as explicit operation lists.
-/

/-- The two shifts of a day (`class Shift(Enum)`), ordered `day < night`. -/
inductive Shift where
  | day : Shift
  | night : Shift
deriving DecidableEq, Repr

/-- The `Enum` value used by the ordering of `Shift` (`day = 0`, `night = 1`). -/
def shiftVal : Shift → Nat
  | .day => 0
  | .night => 1

/-- One fillable slot: `Duty = namedtuple('Duty', ['date', 'shift'])`. -/
structure Duty where
  date : Nat
  shift : Shift
deriving DecidableEq, Repr

/-- The tuple ordering of `Duty` namedtuples: by date, then by shift value. -/
def dutyLe (a b : Duty) : Prop :=
  a.date < b.date ∨ (a.date = b.date ∧ shiftVal a.shift ≤ shiftVal b.shift)

instance : DecidableRel dutyLe := fun a b => by
  unfold dutyLe; infer_instance

instance : IsTotal Duty dutyLe := by
  constructor; intro a b; unfold dutyLe; omega

instance : IsTrans Duty dutyLe := by
  constructor; intro a b c; unfold dutyLe; omega

/-- `ShiftName`: the German display name of a shift. -/
def ShiftName : Shift → String
  | .day => "Tag"
  | .night => "Nacht"

/-- Canonical rendering of a modelled date (stands for `'%Y-%m-%d'`). -/
def dateStr (date : Nat) : String := toString date

/-- `DutyName(duty)`: date string followed by the first letter of the shift name. -/
def DutyName (d : Duty) : String := dateStr d.date ++ (ShiftName d.shift).take 1

def minutesPerDay : Nat := 1440

/-- `DAY_SHIFT_START = datetime.time(10)`, as minute-of-day. -/
def DAY_SHIFT_START : Nat := 600

/-- `NIGHT_SHIFT_START = datetime.time(20)`, as minute-of-day. -/
def NIGHT_SHIFT_START : Nat := 1200

/-- `DutyBeginEnd(duty)`: day shift runs `[date@10:00, date@20:00)`,
night shift runs `[date@20:00, (date+1)@10:00)`. -/
def DutyBeginEnd (d : Duty) : Nat × Nat :=
  match d.shift with
  | .day =>
    (d.date * minutesPerDay + DAY_SHIFT_START, d.date * minutesPerDay + NIGHT_SHIFT_START)
  | .night =>
    (d.date * minutesPerDay + NIGHT_SHIFT_START, (d.date + 1) * minutesPerDay + DAY_SHIFT_START)

/-- `Midwife = namedtuple('Midwife', ['name', 'phone'])`. -/
structure Midwife where
  name : String
  phone : String
deriving DecidableEq, Repr

/-- A remote holiday-schedule event as consumed by `GetDuties`:
`{id, name, startDate, startTime, endDate, endTime}`, the date/time string
pairs modelled as single timestamps. -/
structure RemoteEvent where
  id : Nat
  name : String
  startTs : Nat
  endTs : Nat
deriving DecidableEq, Repr

/-- The `RuntimeError`s raised by the modelled core, keeping the data that the
German message strings interpolate. -/
inductive GhiError where
  | invalidStartTime (time date : Nat)
  | invalidEndTime (time date : Nat)
  | conflictingForwarding (d : Duty)
  | ambiguousAttendant
  | duplicateRule (m : Midwife)
  | missingSchedule (name : String)
  | ruleError (name : String) (inner : GhiError)
deriving DecidableEq, Repr

/-- The roster state of `class DutyRoster`. -/
structure DutyRoster where
  dates : List Nat
  midwife_by_duty : List (Duty × Midwife)
  midwife_by_name : List (String × Midwife)

/-- The candidate duties `{Duty(d, st) for d in self.dates for st in Shift}`
(as a list, before the set semantics applied by `checkDuties`). -/
def allRosterDuties (dates : List Nat) : List Duty :=
  dates.flatMap (fun d => [⟨d, .day⟩, ⟨d, .night⟩])

/-- `duty in self.midwife_by_duty` (dict-key membership). -/
def assigned (r : DutyRoster) (d : Duty) : Bool :=
  r.midwife_by_duty.any (fun p => p.1 == d)

/-- The sorted set of unassigned duties computed by `DutyRoster.Check`:
the set difference is modelled by filter-then-dedup, and `sorted(...)` by
insertion sort under the tuple order. -/
def checkDuties (r : DutyRoster) : List Duty :=
  (((allRosterDuties r.dates).filter (fun d => ! assigned r d)).dedup).insertionSort dutyLe

/-- `f'Niemand hat {ShiftName(d.shift)}schicht am {d.date:%d.%m.%Y}'`. -/
def gapMessage (d : Duty) : String :=
  s!"Niemand hat {ShiftName d.shift}schicht am {dateStr d.date}"

/-- `DutyRoster.Check()`. -/
def Check (r : DutyRoster) : List String :=
  (checkDuties r).map gapMessage

/-- One iteration of the walk in `GetDuties`: at an on-grid timestamp, the
duty claimed and the timestamp the loop advances to (day duty advances to the
same date at 20:00, any other time-of-day to the next date at 10:00). -/
def stepDuty (ts : Nat) : Duty × Nat :=
  if ts % minutesPerDay = DAY_SHIFT_START then
    (⟨ts / minutesPerDay, .day⟩, ts / minutesPerDay * minutesPerDay + NIGHT_SHIFT_START)
  else
    (⟨ts / minutesPerDay, .night⟩, (ts / minutesPerDay + 1) * minutesPerDay + DAY_SHIFT_START)

/-- `duty in event_by_duty` for the accumulated duty map. -/
def hasDuty (m : List (Duty × RemoteEvent)) (d : Duty) : Bool :=
  m.any (fun p => p.1 == d)

/-- The `while start_ts < end_ts` walk of one event in `GetDuties`, with the
claimed duties threaded through `acc`.  The walk advances by at least one
minute per iteration, so the fuel `endTs - startTs` supplied by
`processEvent` makes the `0` branch unreachable; it mirrors the loop exit. -/
def walkAux (ev : RemoteEvent) (endTs : Nat) :
    Nat → Nat → List (Duty × RemoteEvent) → Except GhiError (List (Duty × RemoteEvent))
  | 0, _, acc => .ok acc
  | fuel + 1, startTs, acc =>
    if startTs < endTs then
      let step := stepDuty startTs
      if hasDuty acc step.1 then
        .error (.conflictingForwarding step.1)
      else if endTs < step.2 then
        .error (.invalidEndTime (ev.endTs % minutesPerDay) (ev.startTs / minutesPerDay))
      else
        walkAux ev endTs fuel step.2 (acc ++ [(step.1, ev)])
    else
      .ok acc

/-- Duty map so far, paired with the ids of the events deleted remotely by the
cutoff garbage collection (the `self.Delete(...)` side effects of `GetDuties`). -/
abbrev ParseState := List (Duty × RemoteEvent) × List Nat

/-- `min_duty_end_ts and end_ts < min_duty_end_ts` (a `None` cutoff is falsy). -/
def expiredBefore (cutoff : Option Nat) (ev : RemoteEvent) : Bool :=
  match cutoff with
  | some c => ev.endTs < c
  | none => false

/-- `event['startTime'] in SHIFT_TIME_STRINGS`. -/
def onGridStart (ev : RemoteEvent) : Bool :=
  ev.startTs % minutesPerDay = DAY_SHIFT_START || ev.startTs % minutesPerDay = NIGHT_SHIFT_START

/-- The body of the `for event in ...` loop of `GetDuties`: cutoff garbage
collection first, then the start-time grid validation, then the walk. -/
def processEvent (cutoff : Option Nat) (st : ParseState) (ev : RemoteEvent) :
    Except GhiError ParseState :=
  if expiredBefore cutoff ev then
    .ok (st.1, st.2 ++ [ev.id])
  else if ! onGridStart ev then
    .error (.invalidStartTime (ev.startTs % minutesPerDay) (ev.startTs / minutesPerDay))
  else
    match walkAux ev ev.endTs (ev.endTs - ev.startTs) ev.startTs st.1 with
    | .ok m => .ok (m, st.2)
    | .error e => .error e

/-- Folding `processEvent` over the event list of the remote schedule. -/
def processEvents (cutoff : Option Nat) : ParseState → List RemoteEvent → Except GhiError ParseState
  | st, [] => .ok st
  | st, ev :: rest =>
    match processEvent cutoff st ev with
    | .ok st' => processEvents cutoff st' rest
    | .error e => .error e

/-- `WebexApi.GetDuties(location_id, schedule_id, min_duty_end_ts)`, with the
remote schedule's event list passed explicitly. -/
def GetDuties (cutoff : Option Nat) (events : List RemoteEvent) : Except GhiError ParseState :=
  processEvents cutoff ([], []) events

/-- `AttendantRule = namedtuple(..., ['id', 'schedule_name', 'schedule_id', 'event_by_duty'])`. -/
structure AttendantRule where
  id : Nat
  schedule_name : String
  schedule_id : Nat
  event_by_duty : List (Duty × RemoteEvent)
deriving DecidableEq, Repr

/-- `class AutoAttendant`. -/
structure AutoAttendant where
  id : Nat
  location_id : Nat
  rule_by_midwife : List (Midwife × AttendantRule)
deriving DecidableEq, Repr

/-- `AutoAttendant.AddRule`: error on a duplicate midwife key. -/
def AddRule (att : AutoAttendant) (mw : Midwife) (r : AttendantRule) :
    Except GhiError AutoAttendant :=
  if att.rule_by_midwife.any (fun p => p.1 == mw) then
    .error (.duplicateRule mw)
  else
    .ok { att with rule_by_midwife := att.rule_by_midwife ++ [(mw, r)] }

/-- A remote schedule object `{id, name, type}`. -/
structure ScheduleJson where
  id : Nat
  name : String
  type : String
deriving DecidableEq, Repr

/-- A remote forwarding rule together with the `holidaySchedule` name that the
per-rule `selectiveRules` request returns for it. -/
structure RuleJson where
  id : Nat
  name : String
  phone : String
  enabled : Bool
  holidaySchedule : String
deriving DecidableEq, Repr

/-- The remote data consumed by `GetAutoAttendant`: the auto-attendant list
(as `(id, locationId)` pairs), the location's schedules, the call-forwarding
rules, and each schedule's event list. -/
structure RemoteState where
  attendants : List (Nat × Nat)
  schedules : List ScheduleJson
  rules : List RuleJson
  events_by_schedule : List (Nat × List RemoteEvent)

/-- Dict assignment `m[k] = v`: a later assignment overwrites an earlier one. -/
def dictInsert (m : List (String × Nat)) (k : String) (v : Nat) : List (String × Nat) :=
  match m with
  | [] => [(k, v)]
  | (k', v') :: rest => if k = k' then (k', v) :: rest else (k', v') :: dictInsert rest k v

/-- Dict lookup `m[k]` (with `none` for the `KeyError` case). -/
def lookupStr (m : List (String × Nat)) (k : String) : Option Nat :=
  match m with
  | [] => none
  | (k', v) :: rest => if k = k' then some v else lookupStr rest k

/-- The event list the remote returns for a schedule id. -/
def scheduleEvents (m : List (Nat × List RemoteEvent)) (sid : Nat) : List RemoteEvent :=
  match m.find? (fun p => p.1 == sid) with
  | some p => p.2
  | none => []

/-- `schedule_id_by_name`, collected over the schedules of type `'holidays'`. -/
def holidayScheduleIds (schedules : List ScheduleJson) : List (String × Nat) :=
  (schedules.filter (fun s => s.type == "holidays")).foldl (fun m s => dictInsert m s.name s.id) []

/-- The `try` body for one enabled rule in `GetAutoAttendant`: resolve the
rule's holiday-schedule name to an id, parse the schedule's events, and
register the resulting `AttendantRule`. -/
def resolveRule (cutoff : Option Nat) (rs : RemoteState) (sidByName : List (String × Nat))
    (att : AutoAttendant) (r : RuleJson) : Except GhiError AutoAttendant :=
  match lookupStr sidByName r.holidaySchedule with
  | none => .error (.missingSchedule r.holidaySchedule)
  | some sid =>
    match GetDuties cutoff (scheduleEvents rs.events_by_schedule sid) with
    | .error e => .error e
    | .ok st => AddRule att ⟨r.name, r.phone⟩ ⟨r.id, r.holidaySchedule, sid, st.1⟩

/-- The `for rule in ... rules` loop of `GetAutoAttendant`: enabled rules are
resolved to their schedule and parsed; any failure inside the loop body is
wrapped as `f'Fehler für {rule["name"]}: {ex}'`. -/
def addRules (cutoff : Option Nat) (rs : RemoteState) (sidByName : List (String × Nat)) :
    AutoAttendant → List RuleJson → Except GhiError AutoAttendant
  | att, [] => .ok att
  | att, r :: rest =>
    if r.enabled then
      match resolveRule cutoff rs sidByName att r with
      | .ok att' => addRules cutoff rs sidByName att' rest
      | .error e => .error (.ruleError r.name e)
    else
      addRules cutoff rs sidByName att rest

/-- `WebexApi.GetAutoAttendant`: exactly one remote auto-attendant is required,
then the rule set is built from the remote state. -/
def GetAutoAttendant (rs : RemoteState) (cutoff : Option Nat) : Except GhiError AutoAttendant :=
  if rs.attendants.length ≠ 1 then
    .error .ambiguousAttendant
  else
    addRules cutoff rs (holidayScheduleIds rs.schedules)
      ⟨(rs.attendants.headD (0, 0)).1, (rs.attendants.headD (0, 0)).2, []⟩ rs.rules

/-- `defaultdict(list)` update `m[k].extend(vs)`: extends the entry of `k` in
place, creating it at the end on first use. -/
def extendAt {K V : Type} [DecidableEq K] (m : List (K × List V)) (k : K) (vs : List V) :
    List (K × List V) :=
  match m with
  | [] => [(k, vs)]
  | (k', vs') :: rest => if k = k' then (k', vs' ++ vs) :: rest else (k', vs') :: extendAt rest k vs

/-- Lookup in a `defaultdict(list)`-style association list (absent keys read
as the empty list). -/
def lookupD {K V : Type} [DecidableEq K] (m : List (K × List V)) (k : K) : List V :=
  match m with
  | [] => []
  | (k', vs) :: rest => if k = k' then vs else lookupD rest k

/-- The desired-assignment delta `midwife_by_duty` passed to `Upload`. -/
abbrev Delta := List (Duty × Midwife)

/-- `d in midwife_by_duty` (dict-key membership in the delta). -/
def dutyChanged (delta : Delta) (d : Duty) : Bool :=
  delta.any (fun p => p.1 == d)

/-- `duties_by_id`: one rule's `event_by_duty` entries grouped by the remote
event id, in insertion order. -/
def groupByEventId (entries : List (Duty × RemoteEvent)) : List (Nat × List Duty) :=
  entries.foldl (fun g p => extendAt g p.2.id [p.1]) []

/-- The two defaultdicts built by reconciliation step 1 of `Upload`:
`remove_by_midwife` and `new_duties_by_midwife`. -/
structure CollectState where
  rem : List (Midwife × List Nat)
  new : List (Midwife × List Duty)
deriving DecidableEq, Repr

/-- The body of the `for event_id, ed in duties_by_id.items()` loop: an event
group containing a changed duty is marked for removal and its unchanged
duties, if any, are collected for re-adding. -/
def processGroup (delta : Delta) (mw : Midwife) (st : CollectState) (g : Nat × List Duty) :
    CollectState :=
  if g.2.any (dutyChanged delta) then
    if g.2.filter (fun d => ! dutyChanged delta d) ≠ [] then
      ⟨extendAt st.rem mw [g.1], extendAt st.new mw (g.2.filter (fun d => ! dutyChanged delta d))⟩
    else
      ⟨extendAt st.rem mw [g.1], st.new⟩
  else st

/-- The body of the `for midwife, rule in ... .items()` loop of step 1. -/
def processRule (delta : Delta) (st : CollectState) (mw : Midwife) (rule : AttendantRule) :
    CollectState :=
  if rule.event_by_duty.any (fun p => dutyChanged delta p.1) then
    (groupByEventId rule.event_by_duty).foldl (processGroup delta mw) st
  else st

/-- Reconciliation step 1 of `Upload` over all existing rules. -/
def collectRemovals (att : AutoAttendant) (delta : Delta) : CollectState :=
  att.rule_by_midwife.foldl (fun st p => processRule delta st p.1 p.2) ⟨[], []⟩

/-- Contiguity of two duties: the end of the first's shift equals the start of
the second's (`times[end-1][1] == times[end][0]`). -/
def contigDuty (a b : Duty) : Prop := (DutyBeginEnd a).2 = (DutyBeginEnd b).1

instance : ∀ a b, Decidable (contigDuty a b) := fun a b => by
  unfold contigDuty; infer_instance

/-- The run-length grouping loop of `Upload` (the `while end <= n_duties`
loop): the sorted duty list is split into the maximal runs of consecutively
contiguous duties, translated to structural recursion on the list. -/
def mergeRuns : List Duty → List (List Duty)
  | [] => []
  | [d] => [[d]]
  | d :: d' :: rest =>
    match mergeRuns (d' :: rest) with
    | run :: runs => if contigDuty d d' then (d :: run) :: runs else [d] :: run :: runs
    | [] => [[d]]

/-- The body a new remote event is posted with: `{name, startDate, startTime,
endDate, endTime}`, the date/time string pairs modelled as timestamps. -/
structure NewEvent where
  name : String
  startTs : Nat
  endTs : Nat
deriving DecidableEq, Repr

/-- Event construction from one merged run (`for event_duties in merged_duties`):
name and end are extended when the run has more than one duty. -/
def mkEvent (run : List Duty) : NewEvent :=
  match run with
  | [] => ⟨"", 0, 0⟩
  | d :: rest =>
    if rest = [] then
      ⟨DutyName d, (DutyBeginEnd d).1, (DutyBeginEnd d).2⟩
    else
      ⟨DutyName d ++ "-" ++ DutyName ((d :: rest).getLastD d),
        (DutyBeginEnd d).1, (DutyBeginEnd ((d :: rest).getLastD d)).2⟩

/-- `duties.sort()` models Python's stable sort; on the totally ordered
`Duty` tuples any comparison sort computes the same list. -/
def sortDuties (l : List Duty) : List Duty := l.insertionSort dutyLe

/-- Reconciliation step 4 for one midwife: sort, group into contiguous runs,
and build one event per run. -/
def buildEvents (duties : List Duty) : List NewEvent :=
  (mergeRuns (sortDuties duties)).map mkEvent

/-- The remote mutation calls issued by `Upload`, in order. -/
inductive UploadOp where
  | deleteEvent (scheduleId eventId : Nat)
  | postEvent (scheduleId : Nat) (ev : NewEvent)
  | createSchedule (name : String) (events : List NewEvent)
  | createRule (name phone : String)
deriving DecidableEq, Repr

/-- `auto_attendant.rule_by_midwife[midwife]` (each midwife is looked up
before any rule is added for her, so the original attendant suffices). -/
def findRule (att : AutoAttendant) (mw : Midwife) : Option AttendantRule :=
  match att.rule_by_midwife.find? (fun p => p.1 == mw) with
  | some p => some p.2
  | none => none

/-- Reconciliation step 2: append every delta pair to `new_duties_by_midwife`. -/
def newDutiesAfterDelta (att : AutoAttendant) (delta : Delta) : List (Midwife × List Duty) :=
  delta.foldl (fun m p => extendAt m p.2 [p.1]) (collectRemovals att delta).new

/-- Reconciliation step 3: the `Delete` calls, grouped by owning rule in
`remove_by_midwife` insertion order. -/
def deleteOps (att : AutoAttendant) (delta : Delta) : List UploadOp :=
  (collectRemovals att delta).rem.flatMap (fun p =>
    match findRule att p.1 with
    | some rule => p.2.map (fun eid => UploadOp.deleteEvent rule.schedule_id eid)
    | none => [])

/-- Reconciliation step 5: per midwife, post the merged events under her
existing schedule, or create a schedule carrying the events and then a
selective forwarding rule. -/
def createOps (att : AutoAttendant) (delta : Delta) : List UploadOp :=
  (newDutiesAfterDelta att delta).flatMap (fun p =>
    let events := buildEvents p.2
    match findRule att p.1 with
    | some rule => events.map (UploadOp.postEvent rule.schedule_id)
    | none => [UploadOp.createSchedule p.1.name events, UploadOp.createRule p.1.name p.1.phone])

/-- The full sequence of remote mutations issued by `WebexApi.Upload` (step 6,
the refresh, only re-reads remote state and is not an operation). -/
def UploadOps (att : AutoAttendant) (delta : Delta) : List UploadOp :=
  deleteOps att delta ++ createOps att delta

/-- The duties a conflict-free walk from `startTs` to `endTs` would claim
(fuel-indexed like `walkAux`; used to state which slots an event covers). -/
def walkDuties : Nat → Nat → Nat → List Duty
  | 0, _, _ => []
  | fuel + 1, startTs, endTs =>
    if startTs < endTs then (stepDuty startTs).1 :: walkDuties fuel (stepDuty startTs).2 endTs
    else []

/-- The `k`-th shift boundary reached by walking forward from `startTs`. -/
def nthBoundary (startTs : Nat) : Nat → Nat
  | 0 => startTs
  | k + 1 => (stepDuty (nthBoundary startTs k)).2

/-- Attach a remote id to a posted event, as the refresh after `Upload` would
see it come back from the remote system. -/
def toRemote (i : Nat) (e : NewEvent) : RemoteEvent := ⟨i, e.name, e.startTs, e.endTs⟩

/-- Spec-side description of step 1's removals for one rule, following the
spec's words: group the rule's duty-to-event entries by remote event id and
mark exactly the groups containing a changed duty. -/
def ruleRemovalIds (delta : Delta) (rule : AttendantRule) : List Nat :=
  (groupByEventId rule.event_by_duty).filterMap
    (fun g => if g.2.any (dutyChanged delta) then some g.1 else none)

/-- Spec-side description of step 1's re-adds for one rule, following the
spec's words: the unchanged duties of every marked event group. -/
def ruleKeepDuties (delta : Delta) (rule : AttendantRule) : List Duty :=
  (groupByEventId rule.event_by_duty).flatMap
    (fun g => if g.2.any (dutyChanged delta) then g.2.filter (fun d => ! dutyChanged delta d) else [])

/-- Concrete data: a single already-merged remote event covering the five days
1..5 (duty 1/day through duty 5/night). -/
def evFive : RemoteEvent := ⟨77, "1T-5N", 1 * 1440 + 600, 6 * 1440 + 600⟩

def mwA : Midwife := ⟨"A", "30"⟩

def mwB : Midwife := ⟨"B", "40"⟩

/-- The ten duties of days 1..5. -/
def fiveDayDuties : List Duty :=
  [⟨1, .day⟩, ⟨1, .night⟩, ⟨2, .day⟩, ⟨2, .night⟩, ⟨3, .day⟩,
   ⟨3, .night⟩, ⟨4, .day⟩, ⟨4, .night⟩, ⟨5, .day⟩, ⟨5, .night⟩]

/-- Concrete attendant state: midwife A's rule holds the single five-day
event, midwife B's rule exists with an empty schedule. -/
def attFive : AutoAttendant :=
  ⟨9, 3, [(mwA, ⟨10, "A", 100, fiveDayDuties.map (fun d => (d, evFive))⟩),
          (mwB, ⟨11, "B", 101, []⟩)]⟩

/-- Concrete delta: reassign only day 3 (both shifts) to midwife B. -/
def deltaDayThree : Delta := [(⟨3, .day⟩, mwB), (⟨3, .night⟩, mwB)]

/-! ## Basic lemmas about the time-slot model and the parser -/

theorem begin_lt_end (d : Duty) : (DutyBeginEnd d).1 < (DutyBeginEnd d).2 := by
  cases d with
  | mk date shift =>
    cases shift <;>
      (simp [DutyBeginEnd, minutesPerDay, DAY_SHIFT_START, NIGHT_SHIFT_START]; try omega)

theorem stepDuty_begin (d : Duty) : stepDuty (DutyBeginEnd d).1 = (d, (DutyBeginEnd d).2) := by
  cases d with
  | mk date shift =>
    cases shift
    · have h1 : (date * 1440 + 600) % 1440 = 600 := by omega
      have h2 : (date * 1440 + 600) / 1440 = date := by omega
      simp [stepDuty, DutyBeginEnd, minutesPerDay, DAY_SHIFT_START, NIGHT_SHIFT_START, h1, h2]
    · have h1 : (date * 1440 + 1200) % 1440 = 1200 := by omega
      have h2 : (date * 1440 + 1200) / 1440 = date := by omega
      simp [stepDuty, DutyBeginEnd, minutesPerDay, DAY_SHIFT_START, NIGHT_SHIFT_START, h1, h2]

theorem stepDuty_lt (ts : Nat) : ts < (stepDuty ts).2 := by
  unfold stepDuty minutesPerDay DAY_SHIFT_START NIGHT_SHIFT_START
  split <;> (simp; omega)

theorem begin_mod (d : Duty) :
    (DutyBeginEnd d).1 % minutesPerDay = DAY_SHIFT_START ∨
    (DutyBeginEnd d).1 % minutesPerDay = NIGHT_SHIFT_START := by
  cases d with
  | mk date shift =>
    cases shift <;>
      simp [DutyBeginEnd, minutesPerDay, DAY_SHIFT_START, NIGHT_SHIFT_START] <;> omega

theorem walkAux_done (ev : RemoteEvent) (endTs fuel startTs : Nat)
    (acc : List (Duty × RemoteEvent)) (h : ¬ startTs < endTs) :
    walkAux ev endTs fuel startTs acc = .ok acc := by
  cases fuel <;> simp [walkAux, h]

theorem walkDuties_nil (fuel startTs endTs : Nat) (h : ¬ startTs < endTs) :
    walkDuties fuel startTs endTs = [] := by
  cases fuel <;> simp [walkDuties, h]

theorem hasDuty_append (a b : List (Duty × RemoteEvent)) (d : Duty) :
    hasDuty (a ++ b) d = (hasDuty a d || hasDuty b d) := by
  simp [hasDuty, List.any_append]

theorem processEvents_append (cutoff : Option Nat) (st : ParseState)
    (l1 l2 : List RemoteEvent) :
    processEvents cutoff st (l1 ++ l2)
      = match processEvents cutoff st l1 with
        | .ok st' => processEvents cutoff st' l2
        | .error e => .error e := by
  induction l1 generalizing st with
  | nil => simp [processEvents]
  | cons ev rest ih =>
    simp only [List.cons_append, processEvents]
    cases processEvent cutoff st ev with
    | ok st' => exact ih st'
    | error e => rfl

/-! ## DutyRoster.Check (C8) -/

theorem mem_allRosterDuties (dates : List Nat) (d : Duty) :
    d ∈ allRosterDuties dates ↔ d.date ∈ dates := by
  unfold allRosterDuties
  rw [List.mem_flatMap]
  constructor
  · rintro ⟨a, ha, hd⟩
    simp only [List.mem_cons, List.mem_singleton] at hd
    rcases hd with h | h | h <;> first | (subst h; exact ha) | exact absurd h (by simp)
  · intro h
    refine ⟨d.date, h, ?_⟩
    cases d with
    | mk dt sh => cases sh <;> simp

/-- C8: `Check()` reports exactly the unassigned (date, shift) pairs of the
roster's date range, each rendered by `gapMessage`, sorted ascending by
(date, shift) without duplicates, and reports nothing when every duty in the
range is assigned. -/
theorem check_reports_unassigned (r : DutyRoster) :
    Check r = (checkDuties r).map gapMessage
    ∧ List.Sorted dutyLe (checkDuties r)
    ∧ (checkDuties r).Nodup
    ∧ (∀ d : Duty, d ∈ checkDuties r ↔ (d.date ∈ r.dates ∧ assigned r d = false))
    ∧ ((∀ d : Duty, d.date ∈ r.dates → assigned r d = true) → Check r = []) := by
  refine ⟨rfl, ?_, ?_, ?_, ?_⟩
  · exact List.sorted_insertionSort dutyLe _
  · exact ((List.perm_insertionSort dutyLe _).nodup_iff).mpr (List.nodup_dedup _)
  · intro d
    unfold checkDuties
    rw [List.mem_insertionSort, List.mem_dedup, List.mem_filter, mem_allRosterDuties]
    simp
  · intro hall
    unfold Check checkDuties
    have hfil : (allRosterDuties r.dates).filter (fun d => ! assigned r d) = [] := by
      rw [List.filter_eq_nil_iff]
      intro d hd
      have := hall d ((mem_allRosterDuties r.dates d).mp hd)
      simp [this]
    rw [hfil]
    rfl

/-- C8 witness: on a roster over the single date 0 with only the day shift
assigned, the night duty of date 0 is reported as unassigned. -/
theorem check_reports_unassigned_witness :
    (⟨0, Shift.night⟩ : Duty) ∈
      checkDuties ⟨[0], [(⟨0, .day⟩, mwA)], [("a", mwA)]⟩ :=
  ((check_reports_unassigned ⟨[0], [(⟨0, .day⟩, mwA)], [("a", mwA)]⟩).2.2.2.1
    ⟨0, Shift.night⟩).mpr (by decide)

/-! ## GetAutoAttendant (C9) -/

theorem addRules_ne_ambiguous (cutoff : Option Nat) (rs : RemoteState)
    (sidByName : List (String × Nat)) :
    ∀ (rules : List RuleJson) (att : AutoAttendant),
    addRules cutoff rs sidByName att rules ≠ .error .ambiguousAttendant := by
  intro rules
  induction rules with
  | nil => intro att h; exact Except.noConfusion h
  | cons r rest ih =>
    intro att
    unfold addRules
    split
    · cases hres : resolveRule cutoff rs sidByName att r with
      | ok att' => simpa [hres] using ih att'
      | error e => simp [hres]
    · exact ih att

/-- C9: `GetAutoAttendant` fails with the ambiguous-attendant error exactly
when the remote system reports a number of auto-attendants different from
one, and only constructs an `AutoAttendant` when exactly one is found. -/
theorem attendant_uniqueness (rs : RemoteState) (cutoff : Option Nat) :
    (rs.attendants.length ≠ 1 → GetAutoAttendant rs cutoff = .error .ambiguousAttendant)
    ∧ (GetAutoAttendant rs cutoff = .error .ambiguousAttendant → rs.attendants.length ≠ 1)
    ∧ (∀ att, GetAutoAttendant rs cutoff = .ok att → rs.attendants.length = 1) := by
  refine ⟨?_, ?_, ?_⟩
  · intro h
    simp [GetAutoAttendant, h]
  · intro h hlen
    rw [GetAutoAttendant, if_neg (by omega)] at h
    exact addRules_ne_ambiguous cutoff rs _ _ _ h
  · intro att h
    by_contra hlen
    rw [GetAutoAttendant, if_pos hlen] at h
    exact Except.noConfusion h

/-- C9 witness: with zero remote auto-attendants the construction fails with
the ambiguous-attendant error. -/
theorem attendant_uniqueness_witness :
    (([] : List (Nat × Nat)).length ≠ 1)
    ∧ GetAutoAttendant ⟨[], [], [], []⟩ none = .error .ambiguousAttendant :=
  ⟨by decide, (attendant_uniqueness ⟨[], [], [], []⟩ none).1 (by decide)⟩

/-! ## Degenerate events (C10) and off-grid start times (C5) -/

/-- C10: an event whose start is on the shift grid but whose end is at or
before its start raises no error and claims no duty with no cutoff supplied:
parsing the schedule with the event equals parsing it without the event. -/
theorem empty_interval_event_ignored (pre : List RemoteEvent) (e : RemoteEvent)
    (post : List RemoteEvent) (hgrid : onGridStart e = true) (hle : e.endTs ≤ e.startTs) :
    GetDuties none (pre ++ e :: post) = GetDuties none (pre ++ post) := by
  unfold GetDuties
  rw [processEvents_append, processEvents_append]
  cases hpre : processEvents none ([], []) pre with
  | error err => rfl
  | ok st =>
    have hstep : processEvent none st e = .ok st := by
      obtain ⟨m, dels⟩ := st
      simp only [processEvent, expiredBefore, Bool.false_eq_true, if_false, hgrid,
        Bool.not_true, if_neg]
      have h0 : e.endTs - e.startTs = 0 := by omega
      rw [h0, walkAux_done e e.endTs 0 e.startTs m (by omega)]
    simp only [processEvents, hstep]

/-- C10 witness: a zero-length event starting at 20:00 of date 0 is accepted
and contributes nothing. -/
theorem empty_interval_event_ignored_witness :
    onGridStart ⟨9, "z", 1200, 1200⟩ = true
    ∧ (⟨9, "z", 1200, 1200⟩ : RemoteEvent).endTs ≤ (⟨9, "z", 1200, 1200⟩ : RemoteEvent).startTs
    ∧ GetDuties none ([] ++ (⟨9, "z", 1200, 1200⟩ : RemoteEvent) :: []) = GetDuties none ([] ++ []) :=
  ⟨by decide, by decide, empty_interval_event_ignored [] ⟨9, "z", 1200, 1200⟩ [] (by decide) (by decide)⟩

/-- C5 counterexample: with a cutoff supplied, an expired event whose start
time is off the shift grid (11:00) is garbage-collected — deleted remotely and
skipped — and `GetDuties` raises no error, contradicting the claim that an
off-grid start is never deleted or skipped instead of raising. -/
theorem offgrid_cutoff_deleted_counterexample :
    onGridStart ⟨5, "x", 660, 700⟩ = false
    ∧ GetDuties (some 10000) [⟨5, "x", 660, 700⟩] = .ok ([], [5]) :=
  ⟨by decide, rfl⟩

/-- C5 (amended): an event whose start time is not one of the two shift start
times makes `GetDuties` fail with the invalid-start-time error naming the
offending time and date, provided the event is not garbage-collected by the
cutoff and parsing reaches it without an earlier failure. -/
theorem offgrid_start_invalid (cutoff : Option Nat) (pre : List RemoteEvent)
    (st : ParseState) (e : RemoteEvent) (post : List RemoteEvent)
    (hpre : processEvents cutoff ([], []) pre = .ok st)
    (hgc : expiredBefore cutoff e = false)
    (hoff : onGridStart e = false) :
    GetDuties cutoff (pre ++ e :: post)
      = .error (.invalidStartTime (e.startTs % minutesPerDay) (e.startTs / minutesPerDay)) := by
  unfold GetDuties
  rw [processEvents_append, hpre]
  have hstep : processEvent cutoff st e
      = .error (.invalidStartTime (e.startTs % minutesPerDay) (e.startTs / minutesPerDay)) := by
    simp [processEvent, hgc, hoff]
  simp only [processEvents, hstep]

/-- C5 witness: with no cutoff, the 11:00-start event is rejected with the
invalid-start-time error naming minute 660 of date 0. -/
theorem offgrid_start_invalid_witness :
    processEvents none ([], []) [] = .ok ([], [])
    ∧ expiredBefore none ⟨5, "x", 660, 700⟩ = false
    ∧ onGridStart ⟨5, "x", 660, 700⟩ = false
    ∧ GetDuties none ([] ++ (⟨5, "x", 660, 700⟩ : RemoteEvent) :: [])
        = .error (.invalidStartTime (660 % minutesPerDay) (660 / minutesPerDay)) :=
  ⟨rfl, by decide, by decide,
    offgrid_start_invalid none [] ([], []) ⟨5, "x", 660, 700⟩ [] rfl (by decide) (by decide)⟩

/-! ## Conflicting events (C6) and misaligned event ends (C7) -/

theorem stepDuty_snd_mod (ts : Nat) :
    (stepDuty ts).2 % minutesPerDay = DAY_SHIFT_START ∨
    (stepDuty ts).2 % minutesPerDay = NIGHT_SHIFT_START := by
  unfold stepDuty minutesPerDay DAY_SHIFT_START NIGHT_SHIFT_START
  split <;> (simp; omega)

theorem stepDuty_fst_inj (ts ts' : Nat)
    (h : ts % minutesPerDay = DAY_SHIFT_START ∨ ts % minutesPerDay = NIGHT_SHIFT_START)
    (h' : ts' % minutesPerDay = DAY_SHIFT_START ∨ ts' % minutesPerDay = NIGHT_SHIFT_START)
    (hne : ts ≠ ts') : (stepDuty ts).1 ≠ (stepDuty ts').1 := by
  intro heq
  unfold stepDuty at heq
  simp only [minutesPerDay, DAY_SHIFT_START, NIGHT_SHIFT_START] at h h' heq
  rcases h with h | h <;> rcases h' with h' | h'
  · rw [if_pos h, if_pos h'] at heq
    simp only [Duty.mk.injEq] at heq
    omega
  · rw [if_pos h, if_neg (by omega)] at heq
    simp only [Duty.mk.injEq] at heq
    exact Shift.noConfusion heq.2
  · rw [if_neg (by omega), if_pos h'] at heq
    simp only [Duty.mk.injEq] at heq
    exact Shift.noConfusion heq.2
  · rw [if_neg (by omega), if_neg (by omega)] at heq
    simp only [Duty.mk.injEq] at heq
    omega

theorem nthBoundary_shift (s : Nat) (k : Nat) :
    nthBoundary (stepDuty s).2 k = nthBoundary s (k + 1) := by
  induction k with
  | zero => rfl
  | succ k ih => simp only [nthBoundary, ih]

theorem nthBoundary_mono (s : Nat) (i j : Nat) (h : i < j) :
    nthBoundary s i < nthBoundary s j := by
  induction j with
  | zero => omega
  | succ j ih =>
    have hstep : nthBoundary s j < nthBoundary s (j + 1) := stepDuty_lt _
    rcases Nat.lt_or_ge i j with hij | hij
    · exact lt_trans (ih hij) hstep
    · have : i = j := by omega
      subst this
      exact hstep

theorem nthBoundary_le (s : Nat) (i j : Nat) (h : i ≤ j) :
    nthBoundary s i ≤ nthBoundary s j := by
  rcases Nat.eq_or_lt_of_le h with rfl | hlt
  · exact le_refl _
  · exact le_of_lt (nthBoundary_mono s i j hlt)

theorem nthBoundary_mod (s : Nat)
    (h : s % minutesPerDay = DAY_SHIFT_START ∨ s % minutesPerDay = NIGHT_SHIFT_START) :
    ∀ k, nthBoundary s k % minutesPerDay = DAY_SHIFT_START ∨
      nthBoundary s k % minutesPerDay = NIGHT_SHIFT_START := by
  intro k
  cases k with
  | zero => exact h
  | succ k => exact stepDuty_snd_mod _

theorem walk_overshoot (ev : RemoteEvent) (endTs : Nat) :
    ∀ (k fuel startTs : Nat) (acc : List (Duty × RemoteEvent)),
    endTs - startTs ≤ fuel →
    (startTs % minutesPerDay = DAY_SHIFT_START ∨ startTs % minutesPerDay = NIGHT_SHIFT_START) →
    nthBoundary startTs k < endTs →
    endTs < nthBoundary startTs (k + 1) →
    (∀ i, i ≤ k → hasDuty acc (stepDuty (nthBoundary startTs i)).1 = false) →
    walkAux ev endTs fuel startTs acc
      = .error (.invalidEndTime (ev.endTs % minutesPerDay) (ev.startTs / minutesPerDay)) := by
  intro k
  induction k with
  | zero =>
    intro fuel startTs acc hfuel hgrid hlow hhigh hconf
    have hlt : startTs < endTs := hlow
    obtain ⟨f, rfl⟩ : ∃ f, fuel = f + 1 := ⟨fuel - 1, by omega⟩
    have h0 : hasDuty acc (stepDuty startTs).1 = false := hconf 0 (by omega)
    have h1 : endTs < (stepDuty startTs).2 := hhigh
    simp [walkAux, if_pos hlt, h0, h1]
  | succ k ih =>
    intro fuel startTs acc hfuel hgrid hlow hhigh hconf
    have hlt : startTs < endTs := lt_trans (nthBoundary_mono startTs 0 (k + 1) (by omega)) hlow
    obtain ⟨f, rfl⟩ : ∃ f, fuel = f + 1 := ⟨fuel - 1, by omega⟩
    have h0 : hasDuty acc (stepDuty startTs).1 = false := hconf 0 (by omega)
    have hnotover : ¬ endTs < (stepDuty startTs).2 := by
      have h1 : nthBoundary startTs 1 ≤ nthBoundary startTs (k + 1) := nthBoundary_le startTs 1 (k + 1) (by omega)
      have h2 : nthBoundary startTs 1 < endTs := lt_of_le_of_lt h1 hlow
      exact Nat.not_lt.mpr (le_of_lt h2)
    simp only [walkAux, if_pos hlt, h0, Bool.false_eq_true, if_false, if_neg hnotover]
    apply ih f (stepDuty startTs).2 (acc ++ [((stepDuty startTs).1, ev)])
    · have := stepDuty_lt startTs
      omega
    · exact stepDuty_snd_mod startTs
    · rw [nthBoundary_shift]
      exact hlow
    · rw [nthBoundary_shift]
      exact hhigh
    · intro i hi
      rw [nthBoundary_shift]
      rw [hasDuty_append]
      have ha : hasDuty acc (stepDuty (nthBoundary startTs (i + 1))).1 = false :=
        hconf (i + 1) (by omega)
      have hb : hasDuty [((stepDuty startTs).1, ev)] (stepDuty (nthBoundary startTs (i + 1))).1 = false := by
        simp only [hasDuty, List.any_cons, List.any_nil, Bool.or_false]
        rw [beq_eq_false_iff_ne]
        exact stepDuty_fst_inj startTs (nthBoundary startTs (i + 1)) hgrid
          (nthBoundary_mod startTs hgrid (i + 1))
          (ne_of_lt (nthBoundary_mono startTs 0 (i + 1) (by omega)))
      rw [ha, hb]
      rfl

/-- C7: an event whose start is on the shift grid but whose declared end lies
strictly between two consecutive boundaries reached by the forward walk makes
`GetDuties` fail with the invalid-end-time error, provided the event is not
garbage-collected by the cutoff and the walk proceeds without an earlier
failure (parsing reaches the event and none of its walked duties is already
claimed). -/
theorem overshoot_end_invalid (cutoff : Option Nat) (pre : List RemoteEvent) (st : ParseState)
    (e : RemoteEvent) (post : List RemoteEvent) (k : Nat)
    (hpre : processEvents cutoff ([], []) pre = .ok st)
    (hgc : expiredBefore cutoff e = false)
    (hgrid : e.startTs % minutesPerDay = DAY_SHIFT_START ∨
      e.startTs % minutesPerDay = NIGHT_SHIFT_START)
    (hlow : nthBoundary e.startTs k < e.endTs)
    (hhigh : e.endTs < nthBoundary e.startTs (k + 1))
    (hconf : ∀ i, i ≤ k → hasDuty st.1 (stepDuty (nthBoundary e.startTs i)).1 = false) :
    GetDuties cutoff (pre ++ e :: post)
      = .error (.invalidEndTime (e.endTs % minutesPerDay) (e.startTs / minutesPerDay)) := by
  unfold GetDuties
  rw [processEvents_append, hpre]
  have hongrid : onGridStart e = true := by
    unfold onGridStart
    rcases hgrid with h | h <;> simp [h]
  have hwalk := walk_overshoot e e.endTs k (e.endTs - e.startTs) e.startTs st.1
    (le_refl _) hgrid hlow hhigh hconf
  have hstep : processEvent cutoff st e
      = .error (.invalidEndTime (e.endTs % minutesPerDay) (e.startTs / minutesPerDay)) := by
    simp only [processEvent, hgc, Bool.false_eq_true, if_false, hongrid, Bool.not_true]
    simp [hwalk]
  simp only [processEvents, hstep]

/-- C7 witness: the event starting 10:00 of date 0 and ending 16:40 (minute
1000, strictly between the boundaries 600 and 1200) is rejected with the
invalid-end-time error. -/
theorem overshoot_end_invalid_witness :
    nthBoundary 600 0 < 1000 ∧ (1000 : Nat) < nthBoundary 600 1
    ∧ GetDuties none ([] ++ (⟨5, "x", 600, 1000⟩ : RemoteEvent) :: [])
      = .error (.invalidEndTime (1000 % minutesPerDay) (600 / minutesPerDay)) :=
  ⟨by decide, by decide,
    overshoot_end_invalid none [] ([], []) ⟨5, "x", 600, 1000⟩ [] 0 rfl (by decide)
      (Or.inl (by decide)) (by decide) (by decide) (fun i _ => rfl)⟩

theorem walk_conflict (ev : RemoteEvent) (endTs : Nat) (d : Duty) :
    ∀ (fuel startTs : Nat) (acc : List (Duty × RemoteEvent)),
    endTs - startTs ≤ fuel →
    d ∈ walkDuties fuel startTs endTs →
    hasDuty acc d = true →
    ∃ d', walkAux ev endTs fuel startTs acc = .error (.conflictingForwarding d') := by
  intro fuel
  induction fuel with
  | zero =>
    intro startTs acc _ hmem _
    simp [walkDuties] at hmem
  | succ f ih =>
    intro startTs acc hfuel hmem hacc
    by_cases hlt : startTs < endTs
    · simp only [walkDuties, if_pos hlt, List.mem_cons] at hmem
      by_cases hconf : hasDuty acc (stepDuty startTs).1 = true
      · exact ⟨(stepDuty startTs).1, by simp [walkAux, if_pos hlt, hconf]⟩
      · have hconf' : hasDuty acc (stepDuty startTs).1 = false := by
          cases h : hasDuty acc (stepDuty startTs).1
          · rfl
          · exact absurd h hconf
        rcases hmem with heq | hmem
        · rw [← heq] at hconf'
          rw [hacc] at hconf'
          exact Bool.noConfusion hconf'
        · by_cases hover : endTs < (stepDuty startTs).2
          · rw [walkDuties_nil f _ _ (by omega)] at hmem
            exact absurd hmem (List.not_mem_nil d)
          · obtain ⟨d', hd'⟩ := ih (stepDuty startTs).2 (acc ++ [((stepDuty startTs).1, ev)])
              (by have := stepDuty_lt startTs; omega) hmem
              (by simp [hasDuty_append, hacc])
            refine ⟨d', ?_⟩
            simp only [walkAux, if_pos hlt, hconf', Bool.false_eq_true, if_false, if_neg hover]
            exact hd'
    · rw [walkDuties_nil _ _ _ hlt] at hmem
      exact absurd hmem (List.not_mem_nil d)

/-- C6: when a duty slot is already claimed by an earlier event of the same
parse pass and another event's walk covers that duty, `GetDuties` fails with
a conflicting-forwarding error (it never resolves the conflict). -/
theorem conflicting_event_error (cutoff : Option Nat) (pre : List RemoteEvent) (st : ParseState)
    (e : RemoteEvent) (post : List RemoteEvent) (d : Duty) (ev' : RemoteEvent)
    (hpre : processEvents cutoff ([], []) pre = .ok st)
    (hclaimed : (d, ev') ∈ st.1)
    (hgc : expiredBefore cutoff e = false)
    (hgrid : onGridStart e = true)
    (hcov : d ∈ walkDuties (e.endTs - e.startTs) e.startTs e.endTs) :
    ∃ d', GetDuties cutoff (pre ++ e :: post) = .error (.conflictingForwarding d') := by
  have hhas : hasDuty st.1 d = true := by
    unfold hasDuty
    rw [List.any_eq_true]
    exact ⟨(d, ev'), hclaimed, by simp⟩
  obtain ⟨d', hwalk⟩ := walk_conflict e e.endTs d (e.endTs - e.startTs) e.startTs st.1
    (le_refl _) hcov hhas
  refine ⟨d', ?_⟩
  unfold GetDuties
  rw [processEvents_append, hpre]
  have hstep : processEvent cutoff st e = .error (.conflictingForwarding d') := by
    simp only [processEvent, hgc, Bool.false_eq_true, if_false, hgrid, Bool.not_true]
    simp [hwalk]
  simp only [processEvents, hstep]

/-- C6 witness: two events both covering the day duty of date 0 make the
parse fail with a conflicting-forwarding error. -/
theorem conflicting_event_error_witness :
    processEvents none ([], [])
        [(⟨1, "a", 600, 1200⟩ : RemoteEvent)] = .ok ([(⟨0, .day⟩, ⟨1, "a", 600, 1200⟩)], [])
    ∧ (⟨0, Shift.day⟩, (⟨1, "a", 600, 1200⟩ : RemoteEvent))
        ∈ [((⟨0, .day⟩ : Duty), (⟨1, "a", 600, 1200⟩ : RemoteEvent))]
    ∧ ((⟨0, .day⟩ : Duty)
        ∈ walkDuties ((1200 : Nat) - 600) 600 1200)
    ∧ ∃ d', GetDuties none ([⟨1, "a", 600, 1200⟩] ++ (⟨2, "b", 600, 1200⟩ : RemoteEvent) :: [])
        = .error (.conflictingForwarding d') :=
  ⟨rfl, by decide, by decide,
    conflicting_event_error none [⟨1, "a", 600, 1200⟩] ([(⟨0, .day⟩, ⟨1, "a", 600, 1200⟩)], [])
      ⟨2, "b", 600, 1200⟩ [] ⟨0, .day⟩ ⟨1, "a", 600, 1200⟩ rfl (by decide) (by decide)
      (by decide) (by decide)⟩

/-! ## Reconciliation minimality on the five-day example (C3) -/

/-- C3: with a single merged five-day event for midwife A and a delta that
reassigns only day 3 to midwife B, `Upload` issues exactly one delete (the
original event) and three event creations — days 1-2 and days 4-5 for A, and
day 3 for B — and no other operation. -/
theorem upload_minimality_five_day :
    UploadOps attFive deltaDayThree =
      [.deleteEvent 100 77,
       .postEvent 100 ⟨"1T-2N", 1 * 1440 + 600, 3 * 1440 + 600⟩,
       .postEvent 100 ⟨"4T-5N", 4 * 1440 + 600, 6 * 1440 + 600⟩,
       .postEvent 101 ⟨"3T-3N", 3 * 1440 + 600, 4 * 1440 + 600⟩] := by
  decide

/-! ## The merge step of Upload (C1) -/

theorem mergeRuns_eq_pos {d d' : Duty} {rest t' : List Duty} {runs' : List (List Duty)}
    (h : mergeRuns (d' :: rest) = (d' :: t') :: runs') (hc : contigDuty d d') :
    mergeRuns (d :: d' :: rest) = (d :: d' :: t') :: runs' := by
  rw [mergeRuns, h]
  exact if_pos hc

theorem mergeRuns_eq_neg {d d' : Duty} {rest t' : List Duty} {runs' : List (List Duty)}
    (h : mergeRuns (d' :: rest) = (d' :: t') :: runs') (hc : ¬ contigDuty d d') :
    mergeRuns (d :: d' :: rest) = [d] :: (d' :: t') :: runs' := by
  rw [mergeRuns, h]
  exact if_neg hc

theorem mergeRuns_cons (l : List Duty) (d : Duty) :
    ∃ t runs, mergeRuns (d :: l) = (d :: t) :: runs := by
  induction l generalizing d with
  | nil => exact ⟨[], [], rfl⟩
  | cons d' rest ih =>
    obtain ⟨t', runs', h⟩ := ih d'
    by_cases hc : contigDuty d d'
    · exact ⟨d' :: t', runs', mergeRuns_eq_pos h hc⟩
    · exact ⟨[], (d' :: t') :: runs', mergeRuns_eq_neg h hc⟩

theorem mergeRuns_flatten : ∀ l : List Duty, (mergeRuns l).flatten = l := by
  intro l
  induction l with
  | nil => rfl
  | cons d rest ih =>
    cases rest with
    | nil => rfl
    | cons d' rest' =>
      obtain ⟨t', runs', h⟩ := mergeRuns_cons rest' d'
      rw [h] at ih
      by_cases hc : contigDuty d d'
      · rw [mergeRuns_eq_pos h hc, List.flatten_cons]
        rw [List.flatten_cons] at ih
        simp only [List.cons_append] at ih ⊢
        exact congrArg (List.cons d) ih
      · rw [mergeRuns_eq_neg h hc, List.flatten_cons]
        rw [ih]
        rfl

theorem mergeRuns_chain : ∀ l : List Duty, ∀ run ∈ mergeRuns l, run ≠ [] ∧ run.Chain' contigDuty := by
  intro l
  induction l with
  | nil =>
    intro run hrun
    simp [mergeRuns] at hrun
  | cons d rest ih =>
    cases rest with
    | nil =>
      intro run hrun
      simp only [mergeRuns, List.mem_singleton] at hrun
      subst hrun
      exact ⟨by simp, List.chain'_singleton d⟩
    | cons d' rest' =>
      obtain ⟨t', runs', h⟩ := mergeRuns_cons rest' d'
      intro run hrun
      by_cases hc : contigDuty d d'
      · rw [mergeRuns_eq_pos h hc] at hrun
        rcases List.mem_cons.mp hrun with heq | hmem
        · subst heq
          refine ⟨by simp, ?_⟩
          rw [List.chain'_cons]
          refine ⟨hc, ?_⟩
          exact (ih (d' :: t') (by rw [h]; exact List.mem_cons_self _ _)).2
        · exact ih run (by rw [h]; exact List.mem_cons_of_mem _ hmem)
      · rw [mergeRuns_eq_neg h hc] at hrun
        rcases List.mem_cons.mp hrun with heq | hmem
        · subst heq
          exact ⟨by simp, List.chain'_singleton d⟩
        · exact ih run (by rw [h]; exact hmem)

theorem mergeRuns_boundary : ∀ l : List Duty,
    (mergeRuns l).Chain' (fun r s => ¬ contigDuty (r.getLastD ⟨0, .day⟩) (s.headD ⟨0, .day⟩)) := by
  intro l
  induction l with
  | nil => simp [mergeRuns]
  | cons d rest ih =>
    cases rest with
    | nil => simp [mergeRuns]
    | cons d' rest' =>
      obtain ⟨t', runs', h⟩ := mergeRuns_cons rest' d'
      rw [h] at ih
      by_cases hc : contigDuty d d'
      · rw [mergeRuns_eq_pos h hc]
        rw [List.chain'_cons'] at ih ⊢
        refine ⟨?_, ih.2⟩
        intro y hy
        have hgl : (d :: d' :: t').getLastD ⟨0, .day⟩ = (d' :: t').getLastD ⟨0, .day⟩ := by
          simp [List.getLastD_cons]
        rw [hgl]
        exact ih.1 y hy
      · rw [mergeRuns_eq_neg h hc]
        rw [List.chain'_cons]
        refine ⟨?_, ih⟩
        simpa using hc

/-- C1: for each person's pending duties, the merge-and-create step first
sorts ascending by (date, shift), then splits the sorted list into runs that
are contiguous exactly when one duty's shift end equals the next duty's shift
start (per `DutyBeginEnd`, exact equality), and builds per run one event named
`DutyName(first)` (extended by `-DutyName(last)` for multi-duty runs) running
from the first duty's shift start to the last duty's shift end. -/
theorem merge_and_create_spec (duties : List Duty) :
    (sortDuties duties).Perm duties
    ∧ List.Sorted dutyLe (sortDuties duties)
    ∧ (mergeRuns (sortDuties duties)).flatten = sortDuties duties
    ∧ (∀ run ∈ mergeRuns (sortDuties duties), run ≠ [] ∧ run.Chain' contigDuty)
    ∧ (mergeRuns (sortDuties duties)).Chain'
        (fun r s => ¬ contigDuty (r.getLastD ⟨0, .day⟩) (s.headD ⟨0, .day⟩))
    ∧ buildEvents duties = (mergeRuns (sortDuties duties)).map mkEvent
    ∧ (∀ run ∈ mergeRuns (sortDuties duties), ∀ hd, run.head? = some hd →
        mkEvent run = ⟨(if run.length = 1 then DutyName hd
            else DutyName hd ++ "-" ++ DutyName (run.getLastD hd)),
          (DutyBeginEnd hd).1, (DutyBeginEnd (run.getLastD hd)).2⟩) := by
  refine ⟨List.perm_insertionSort dutyLe duties, List.sorted_insertionSort dutyLe duties,
    mergeRuns_flatten _, mergeRuns_chain _, mergeRuns_boundary _, rfl, ?_⟩
  intro run hrun hd hhd
  cases run with
  | nil => simp at hhd
  | cons d rest =>
    simp only [List.head?_cons, Option.some.injEq] at hhd
    subst hhd
    cases rest with
    | nil => simp [mkEvent]
    | cons e t => simp [mkEvent]

/-- C1 witness: the duties 1/night, 1/day, 3/day sort to put day 1 first, the
two day-1 duties merge into one run, and that run's event spans from day 1
10:00 to day 2 10:00 under the combined name. -/
theorem merge_and_create_spec_witness :
    ([⟨1, .day⟩, ⟨1, .night⟩] : List Duty)
        ∈ mergeRuns (sortDuties [⟨1, .night⟩, ⟨1, .day⟩, ⟨3, .day⟩])
    ∧ mkEvent [⟨1, .day⟩, ⟨1, .night⟩]
        = ⟨"1T-1N", 1 * 1440 + 600, 2 * 1440 + 600⟩ :=
  ⟨by decide, by
    have h := (merge_and_create_spec [⟨1, .night⟩, ⟨1, .day⟩, ⟨3, .day⟩]).2.2.2.2.2.2
      [⟨1, .day⟩, ⟨1, .night⟩] (by decide) ⟨1, .day⟩ rfl
    rw [h]
    decide⟩

/-! ## Round-trip: merge then parse (C4) -/

theorem mkEvent_startTs (d : Duty) (rest : List Duty) :
    (mkEvent (d :: rest)).startTs = (DutyBeginEnd d).1 := by
  cases rest <;> simp [mkEvent]

theorem getLastD_default_irrel (b : Duty) (l : List Duty) (a c : Duty) :
    (b :: l).getLastD a = (b :: l).getLastD c := by
  cases l with
  | nil => rfl
  | cons x xs => simp only [List.getLastD_cons]

theorem mkEvent_endTs (d : Duty) (rest : List Duty) :
    (mkEvent (d :: rest)).endTs = (DutyBeginEnd ((d :: rest).getLastD ⟨0, .day⟩)).2 := by
  cases rest with
  | nil => simp [mkEvent]
  | cons e t =>
    rw [getLastD_default_irrel d (e :: t) ⟨0, .day⟩ d]
    simp [mkEvent]

theorem chain_begin_lt (d : Duty) (rest : List Duty)
    (h : List.Chain' contigDuty (d :: rest)) :
    (DutyBeginEnd d).1 < (DutyBeginEnd ((d :: rest).getLastD ⟨0, .day⟩)).2 := by
  induction rest generalizing d with
  | nil => simpa using begin_lt_end d
  | cons e t ih =>
    rw [List.chain'_cons] at h
    have h1 := begin_lt_end d
    have h2 : (DutyBeginEnd d).2 = (DutyBeginEnd e).1 := h.1
    have h3 := ih e h.2
    have h4 : (d :: e :: t).getLastD ⟨0, .day⟩ = (e :: t).getLastD ⟨0, .day⟩ := by
      rw [List.getLastD_cons]
      exact getLastD_default_irrel e t d ⟨0, .day⟩
    rw [h4]
    omega

theorem walk_run (ev : RemoteEvent) :
    ∀ (run : List Duty) (d : Duty) (acc : List (Duty × RemoteEvent)) (fuel endTs : Nat),
    List.Chain' contigDuty (d :: run) → (d :: run).Nodup →
    (∀ x ∈ d :: run, hasDuty acc x = false) →
    endTs = (DutyBeginEnd ((d :: run).getLastD ⟨0, .day⟩)).2 →
    endTs - (DutyBeginEnd d).1 ≤ fuel →
    walkAux ev endTs fuel (DutyBeginEnd d).1 acc
      = .ok (acc ++ (d :: run).map (fun x => (x, ev))) := by
  intro run
  induction run with
  | nil =>
    intro d acc fuel endTs hchain hnodup hacc hend hfuel
    have hend' : endTs = (DutyBeginEnd d).2 := by simpa using hend
    subst hend'
    have hlt : (DutyBeginEnd d).1 < (DutyBeginEnd d).2 := begin_lt_end d
    obtain ⟨f, rfl⟩ : ∃ f, fuel = f + 1 := ⟨fuel - 1, by omega⟩
    have hd : hasDuty acc d = false := hacc d (List.mem_cons_self _ _)
    have hdone : walkAux ev (DutyBeginEnd d).2 f (DutyBeginEnd d).2 (acc ++ [(d, ev)])
        = .ok (acc ++ [(d, ev)]) := walkAux_done ev _ f _ _ (lt_irrefl _)
    simp [walkAux, if_pos hlt, stepDuty_begin, hd, hdone]
  | cons e t ih =>
    intro d acc fuel endTs hchain hnodup hacc hend hfuel
    have hchain2 := (List.chain'_cons.mp hchain).2
    have hcontig : (DutyBeginEnd d).2 = (DutyBeginEnd e).1 := (List.chain'_cons.mp hchain).1
    have hendeq : endTs = (DutyBeginEnd ((e :: t).getLastD ⟨0, .day⟩)).2 := by
      rw [hend, List.getLastD_cons, getLastD_default_irrel e t d ⟨0, .day⟩]
    have hlt : (DutyBeginEnd d).1 < endTs := by
      rw [hend]
      exact chain_begin_lt d (e :: t) hchain
    have hb : (DutyBeginEnd e).1 < endTs := by
      rw [hendeq]
      exact chain_begin_lt e t hchain2
    obtain ⟨f, rfl⟩ : ∃ f, fuel = f + 1 := ⟨fuel - 1, by omega⟩
    have hd : hasDuty acc d = false := hacc d (List.mem_cons_self _ _)
    have hnotover : ¬ endTs < (DutyBeginEnd d).2 := by
      rw [hcontig]
      omega
    have hdne : d ∉ e :: t := (List.nodup_cons.mp hnodup).1
    have hacc' : ∀ x ∈ e :: t, hasDuty (acc ++ [(d, ev)]) x = false := by
      intro x hx
      rw [hasDuty_append, hacc x (List.mem_cons_of_mem _ hx)]
      have hxd : d ≠ x := fun h => hdne (h ▸ hx)
      simp [hasDuty, hxd]
    have hrec := ih e (acc ++ [(d, ev)]) f endTs hchain2 (List.nodup_cons.mp hnodup).2
      hacc' hendeq (by have := begin_lt_end d; omega)
    rw [← hcontig] at hrec
    simp only [walkAux, if_pos hlt, stepDuty_begin, hd, Bool.false_eq_true, if_false,
      if_neg hnotover]
    rw [hrec]
    simp

theorem enumFrom_map_mkEvent (rs : List (List Duty)) :
    ∀ k : Nat, (List.enumFrom k (rs.map mkEvent)).map (fun p => toRemote p.1 p.2)
      = (List.enumFrom k rs).map (fun p => toRemote p.1 (mkEvent p.2)) := by
  induction rs with
  | nil => intro k; rfl
  | cons run rest ih =>
    intro k
    simp only [List.map_cons, List.enumFrom]
    rw [ih (k + 1)]

theorem map_fst_flatMap_runs (rs : List (List Duty)) :
    ∀ k : Nat, ((List.enumFrom k rs).flatMap
        (fun p => p.2.map (fun d => (d, toRemote p.1 (mkEvent p.2))))).map Prod.fst
      = rs.flatten := by
  induction rs with
  | nil => intro k; rfl
  | cons run rest ih =>
    intro k
    simp only [List.enumFrom, List.flatMap_cons, List.map_append, List.map_map,
      List.flatten_cons]
    rw [ih (k + 1)]
    congr 1
    have hid : (Prod.fst ∘ fun d : Duty => (d, toRemote k (mkEvent run))) = id := rfl
    rw [hid, List.map_id]

theorem processEvents_cons_ok {cutoff : Option Nat} {st st' : ParseState} {ev : RemoteEvent}
    (evs : List RemoteEvent) (h : processEvent cutoff st ev = .ok st') :
    processEvents cutoff st (ev :: evs) = processEvents cutoff st' evs := by
  simp only [processEvents, h]

theorem processEvents_runs (runs : List (List Duty)) :
    ∀ (k : Nat) (acc : List (Duty × RemoteEvent)) (dels : List Nat),
    (∀ run ∈ runs, run ≠ [] ∧ run.Chain' contigDuty) →
    runs.flatten.Nodup →
    (∀ d ∈ runs.flatten, hasDuty acc d = false) →
    processEvents none (acc, dels)
        ((List.enumFrom k runs).map (fun p => toRemote p.1 (mkEvent p.2)))
      = .ok (acc ++ (List.enumFrom k runs).flatMap
          (fun p => p.2.map (fun d => (d, toRemote p.1 (mkEvent p.2)))), dels) := by
  induction runs with
  | nil =>
    intro k acc dels _ _ _
    simp [processEvents]
  | cons run rest ih =>
    intro k acc dels hruns hnodup hacc
    obtain ⟨hne, hchain⟩ := hruns run (List.mem_cons_self _ _)
    obtain ⟨d, t, rfl⟩ : ∃ d t, run = d :: t := by
      cases run with
      | nil => exact absurd rfl hne
      | cons a b => exact ⟨a, b, rfl⟩
    rw [List.flatten_cons] at hnodup hacc
    have hnd := (List.nodup_append.mp hnodup).1
    have hndrest := (List.nodup_append.mp hnodup).2.1
    have hdisj := (List.nodup_append.mp hnodup).2.2
    have hgrid : onGridStart (toRemote k (mkEvent (d :: t))) = true := by
      unfold onGridStart
      simp only [toRemote, mkEvent_startTs]
      rcases begin_mod d with h | h <;> simp [h]
    have hstart : (toRemote k (mkEvent (d :: t))).startTs = (DutyBeginEnd d).1 := by
      simp [toRemote, mkEvent_startTs]
    have hendts : (toRemote k (mkEvent (d :: t))).endTs
        = (DutyBeginEnd ((d :: t).getLastD ⟨0, .day⟩)).2 := by
      simp [toRemote, mkEvent_endTs]
    have hwalk : walkAux (toRemote k (mkEvent (d :: t))) (toRemote k (mkEvent (d :: t))).endTs
        ((toRemote k (mkEvent (d :: t))).endTs - (toRemote k (mkEvent (d :: t))).startTs)
        (toRemote k (mkEvent (d :: t))).startTs acc
        = .ok (acc ++ (d :: t).map (fun x => (x, toRemote k (mkEvent (d :: t))))) := by
      rw [hstart, hendts]
      exact walk_run (toRemote k (mkEvent (d :: t))) t d acc _ _ hchain hnd
        (fun x hx => hacc x (List.mem_append_left _ hx)) rfl (le_refl _)
    have hpe : processEvent none (acc, dels) (toRemote k (mkEvent (d :: t)))
        = .ok (acc ++ (d :: t).map (fun x => (x, toRemote k (mkEvent (d :: t)))), dels) := by
      simp only [processEvent, expiredBefore, Bool.false_eq_true, if_false, hgrid,
        Bool.not_true, hwalk]
    have hacc' : ∀ x ∈ rest.flatten,
        hasDuty (acc ++ (d :: t).map (fun y => (y, toRemote k (mkEvent (d :: t))))) x
          = false := by
      intro x hx
      rw [hasDuty_append, hacc x (List.mem_append_right _ hx)]
      have hxnot : x ∉ d :: t := fun hmem => hdisj hmem hx
      simp only [hasDuty, Bool.false_or]
      rw [List.any_eq_false]
      intro a ha
      obtain ⟨y, hy, rfl⟩ := List.mem_map.mp ha
      simp only [beq_iff_eq]
      intro hyx
      exact hxnot (hyx ▸ hy)
    have hrest := ih (k + 1)
      (acc ++ (d :: t).map (fun y => (y, toRemote k (mkEvent (d :: t))))) dels
      (fun r hr => hruns r (List.mem_cons_of_mem _ hr)) hndrest hacc'
    have hconseq : (List.enumFrom k ((d :: t) :: rest)).map (fun p => toRemote p.1 (mkEvent p.2))
        = toRemote k (mkEvent (d :: t))
          :: (List.enumFrom (k + 1) rest).map (fun p => toRemote p.1 (mkEvent p.2)) := rfl
    rw [hconseq, processEvents_cons_ok _ hpe, hrest]
    have hflatcons : (List.enumFrom k ((d :: t) :: rest)).flatMap
          (fun p => p.2.map (fun x => (x, toRemote p.1 (mkEvent p.2))))
        = (d :: t).map (fun x => (x, toRemote k (mkEvent (d :: t))))
          ++ (List.enumFrom (k + 1) rest).flatMap
              (fun p => p.2.map (fun x => (x, toRemote p.1 (mkEvent p.2)))) := rfl
    rw [hflatcons, ← List.append_assoc]

/-- C4: parsing back the remote events built by the merge step from a
duplicate-free set of duties succeeds (no cutoff), deletes nothing, claims
exactly the original duties (the sorted permutation of the input), and maps
each duty to the event of its own run. -/
theorem merge_parse_roundtrip (duties : List Duty) (hnd : duties.Nodup) :
    GetDuties none ((buildEvents duties).enum.map (fun p => toRemote p.1 p.2))
      = .ok ((List.enumFrom 0 (mergeRuns (sortDuties duties))).flatMap
          (fun p => p.2.map (fun d => (d, toRemote p.1 (mkEvent p.2)))), [])
    ∧ ((List.enumFrom 0 (mergeRuns (sortDuties duties))).flatMap
          (fun p => p.2.map (fun d => (d, toRemote p.1 (mkEvent p.2))))).map Prod.fst
        = sortDuties duties
    ∧ (((List.enumFrom 0 (mergeRuns (sortDuties duties))).flatMap
          (fun p => p.2.map (fun d => (d, toRemote p.1 (mkEvent p.2))))).map Prod.fst).Perm
        duties := by
  have hsortnd : (sortDuties duties).Nodup :=
    ((List.perm_insertionSort dutyLe duties).nodup_iff).mpr hnd
  have hflat : (mergeRuns (sortDuties duties)).flatten = sortDuties duties :=
    mergeRuns_flatten _
  have hflatnd : (mergeRuns (sortDuties duties)).flatten.Nodup := by
    rw [hflat]
    exact hsortnd
  have hcover : ((List.enumFrom 0 (mergeRuns (sortDuties duties))).flatMap
      (fun p => p.2.map (fun d => (d, toRemote p.1 (mkEvent p.2))))).map Prod.fst
      = sortDuties duties := by
    rw [map_fst_flatMap_runs, hflat]
  refine ⟨?_, hcover, ?_⟩
  · unfold GetDuties buildEvents
    have henum : ((mergeRuns (sortDuties duties)).map mkEvent).enum
        = List.enumFrom 0 ((mergeRuns (sortDuties duties)).map mkEvent) := rfl
    rw [henum, enumFrom_map_mkEvent]
    have := processEvents_runs (mergeRuns (sortDuties duties)) 0 [] []
      (mergeRuns_chain _) hflatnd (fun d _ => rfl)
    simpa using this
  · rw [hcover]
    exact List.perm_insertionSort dutyLe duties

/-- C4 witness: the three duties 1/day, 1/night, 3/day round-trip through the
merge step and the parser. -/
theorem merge_parse_roundtrip_witness :
    ([⟨1, .day⟩, ⟨1, .night⟩, ⟨3, .day⟩] : List Duty).Nodup
    ∧ GetDuties none
        ((buildEvents [⟨1, .day⟩, ⟨1, .night⟩, ⟨3, .day⟩]).enum.map (fun p => toRemote p.1 p.2))
      = .ok ((List.enumFrom 0
            (mergeRuns (sortDuties [⟨1, .day⟩, ⟨1, .night⟩, ⟨3, .day⟩]))).flatMap
          (fun p => p.2.map (fun d => (d, toRemote p.1 (mkEvent p.2)))), []) :=
  ⟨by decide, (merge_parse_roundtrip [⟨1, .day⟩, ⟨1, .night⟩, ⟨3, .day⟩] (by decide)).1⟩

/-! ## Reconciliation step 1: collecting removals and re-adds (C2) -/

theorem lookupD_extendAt_self {K V : Type} [DecidableEq K] (m : List (K × List V)) (k : K)
    (vs : List V) : lookupD (extendAt m k vs) k = lookupD m k ++ vs := by
  induction m with
  | nil => simp [extendAt, lookupD]
  | cons p rest ih =>
    obtain ⟨k0, vs0⟩ := p
    by_cases h : k = k0
    · subst h
      simp [extendAt, lookupD]
    · simp [extendAt, lookupD, h, ih]

theorem lookupD_extendAt_ne {K V : Type} [DecidableEq K] (m : List (K × List V)) (k k' : K)
    (vs : List V) (h : k ≠ k') : lookupD (extendAt m k' vs) k = lookupD m k := by
  induction m with
  | nil => simp [extendAt, lookupD, h]
  | cons p rest ih =>
    obtain ⟨k0, vs0⟩ := p
    by_cases h0 : k' = k0
    · subst h0
      simp [extendAt, lookupD, h]
    · by_cases h1 : k = k0
      · subst h1
        simp [extendAt, lookupD, h0]
      · simp [extendAt, lookupD, h0, h1, ih]

theorem processGroup_lookup_ne (delta : Delta) (mw mw' : Midwife) (st : CollectState)
    (g : Nat × List Duty) (h : mw' ≠ mw) :
    lookupD (processGroup delta mw st g).rem mw' = lookupD st.rem mw'
    ∧ lookupD (processGroup delta mw st g).new mw' = lookupD st.new mw' := by
  unfold processGroup
  split_ifs with h1 h2
  · exact ⟨lookupD_extendAt_ne _ _ _ _ h, lookupD_extendAt_ne _ _ _ _ h⟩
  · exact ⟨lookupD_extendAt_ne _ _ _ _ h, rfl⟩
  · exact ⟨rfl, rfl⟩

theorem processGroup_lookup_self (delta : Delta) (mw : Midwife) (st : CollectState)
    (g : Nat × List Duty) :
    lookupD (processGroup delta mw st g).rem mw
      = lookupD st.rem mw ++ (if g.2.any (dutyChanged delta) then [g.1] else [])
    ∧ lookupD (processGroup delta mw st g).new mw
      = lookupD st.new mw
        ++ (if g.2.any (dutyChanged delta) then g.2.filter (fun d => ! dutyChanged delta d)
            else []) := by
  unfold processGroup
  split_ifs with h1 h2
  · exact ⟨lookupD_extendAt_self _ _ _, lookupD_extendAt_self _ _ _⟩
  · refine ⟨lookupD_extendAt_self _ _ _, ?_⟩
    rw [not_not.mp h2, List.append_nil]
  · exact ⟨(List.append_nil _).symm, (List.append_nil _).symm⟩

theorem foldl_processGroup_self (delta : Delta) (mw : Midwife) :
    ∀ (gs : List (Nat × List Duty)) (st : CollectState),
    lookupD (gs.foldl (processGroup delta mw) st).rem mw
      = lookupD st.rem mw
        ++ gs.filterMap (fun g => if g.2.any (dutyChanged delta) then some g.1 else none)
    ∧ lookupD (gs.foldl (processGroup delta mw) st).new mw
      = lookupD st.new mw
        ++ gs.flatMap (fun g => if g.2.any (dutyChanged delta)
            then g.2.filter (fun d => ! dutyChanged delta d) else []) := by
  intro gs
  induction gs with
  | nil => intro st; simp
  | cons g rest ih =>
    intro st
    simp only [List.foldl_cons]
    obtain ⟨h1, h2⟩ := ih (processGroup delta mw st g)
    obtain ⟨h3, h4⟩ := processGroup_lookup_self delta mw st g
    constructor
    · by_cases hany : g.2.any (dutyChanged delta) = true
      · have hsome : (if g.2.any (dutyChanged delta) = true then some g.1 else none)
            = some g.1 := if_pos hany
        rw [h1, h3, if_pos hany, List.filterMap_cons, hsome, List.append_assoc]
        rfl
      · have hnone : (if g.2.any (dutyChanged delta) = true then some g.1 else none)
            = none := if_neg hany
        rw [h1, h3, if_neg hany, List.filterMap_cons, hnone, List.append_nil]
    · rw [h2, h4, List.flatMap_cons, List.append_assoc]

theorem foldl_processGroup_ne (delta : Delta) (mw mw' : Midwife) (h : mw' ≠ mw) :
    ∀ (gs : List (Nat × List Duty)) (st : CollectState),
    lookupD (gs.foldl (processGroup delta mw) st).rem mw' = lookupD st.rem mw'
    ∧ lookupD (gs.foldl (processGroup delta mw) st).new mw' = lookupD st.new mw' := by
  intro gs
  induction gs with
  | nil => intro st; exact ⟨rfl, rfl⟩
  | cons g rest ih =>
    intro st
    simp only [List.foldl_cons]
    obtain ⟨h1, h2⟩ := ih (processGroup delta mw st g)
    obtain ⟨h3, h4⟩ := processGroup_lookup_ne delta mw mw' st g h
    exact ⟨h1.trans h3, h2.trans h4⟩

theorem extendAt_values {K V : Type} [DecidableEq K] (m : List (K × List V)) (k : K)
    (vs : List V) (x : V) :
    (∃ g ∈ extendAt m k vs, x ∈ g.2) → (∃ g ∈ m, x ∈ g.2) ∨ x ∈ vs := by
  induction m with
  | nil =>
    rintro ⟨g, hg, hx⟩
    simp only [extendAt, List.mem_singleton] at hg
    subst hg
    exact Or.inr hx
  | cons p rest ih =>
    obtain ⟨k0, vs0⟩ := p
    rintro ⟨g, hg, hx⟩
    by_cases h0 : k = k0
    · rw [extendAt, if_pos h0] at hg
      rcases List.mem_cons.mp hg with rfl | hgrest
      · rcases List.mem_append.mp hx with hx0 | hxv
        · exact Or.inl ⟨(k0, vs0), List.mem_cons_self _ _, hx0⟩
        · exact Or.inr hxv
      · exact Or.inl ⟨g, List.mem_cons_of_mem _ hgrest, hx⟩
    · rw [extendAt, if_neg h0] at hg
      rcases List.mem_cons.mp hg with rfl | hgrest
      · exact Or.inl ⟨(k0, vs0), List.mem_cons_self _ _, hx⟩
      · rcases ih ⟨g, hgrest, hx⟩ with h1 | h2
        · exact Or.inl (let ⟨g', hg', hx'⟩ := h1; ⟨g', List.mem_cons_of_mem _ hg', hx'⟩)
        · exact Or.inr h2

theorem groupByEventId_values (es : List (Duty × RemoteEvent)) (d : Duty) :
    ∀ g0 : List (Nat × List Duty),
    (∃ g ∈ es.foldl (fun g p => extendAt g p.2.id [p.1]) g0, d ∈ g.2) →
    (∃ g ∈ g0, d ∈ g.2) ∨ ∃ p ∈ es, p.1 = d := by
  induction es with
  | nil =>
    intro g0 h
    exact Or.inl h
  | cons p rest ih =>
    intro g0 h
    simp only [List.foldl_cons] at h
    rcases ih (extendAt g0 p.2.id [p.1]) h with h1 | h2
    · rcases extendAt_values g0 p.2.id [p.1] d h1 with h3 | h4
      · exact Or.inl h3
      · exact Or.inr ⟨p, List.mem_cons_self _ _, by simpa using (List.mem_singleton.mp h4).symm⟩
    · obtain ⟨q, hq, he⟩ := h2
      exact Or.inr ⟨q, List.mem_cons_of_mem _ hq, he⟩

theorem filterMap_removals_nil {delta : Delta} {gs : List (Nat × List Duty)}
    (h : ∀ g ∈ gs, g.2.any (dutyChanged delta) = false) :
    gs.filterMap (fun g => if g.2.any (dutyChanged delta) then some g.1 else none) = [] := by
  induction gs with
  | nil => rfl
  | cons g rest ih =>
    have h0 : (if g.2.any (dutyChanged delta) = true then some g.1 else none) = none := by
      simp [h g (List.mem_cons_self _ _)]
    rw [List.filterMap_cons, h0]
    exact ih (fun g' hg' => h g' (List.mem_cons_of_mem _ hg'))

theorem flatMap_keeps_nil {delta : Delta} {gs : List (Nat × List Duty)}
    (h : ∀ g ∈ gs, g.2.any (dutyChanged delta) = false) :
    gs.flatMap (fun g => if g.2.any (dutyChanged delta)
        then g.2.filter (fun d => ! dutyChanged delta d) else []) = [] := by
  induction gs with
  | nil => rfl
  | cons g rest ih =>
    have h0 : (if g.2.any (dutyChanged delta) = true
        then g.2.filter (fun d => ! dutyChanged delta d) else []) = [] := by
      simp [h g (List.mem_cons_self _ _)]
    rw [List.flatMap_cons, h0, List.nil_append]
    exact ih (fun g' hg' => h g' (List.mem_cons_of_mem _ hg'))

theorem processRule_groups_unchanged {delta : Delta} {rule : AttendantRule}
    (hint : ¬ rule.event_by_duty.any (fun p => dutyChanged delta p.1) = true) :
    ∀ g ∈ groupByEventId rule.event_by_duty, g.2.any (dutyChanged delta) = false := by
  intro g hg
  cases hany : g.2.any (dutyChanged delta) with
  | false => rfl
  | true =>
    exfalso
    obtain ⟨d, hd, hdc⟩ := List.any_eq_true.mp hany
    unfold groupByEventId at hg
    rcases groupByEventId_values rule.event_by_duty d [] ⟨g, hg, hd⟩ with h1 | h2
    · obtain ⟨g', hg', _⟩ := h1
      exact absurd hg' (List.not_mem_nil _)
    · obtain ⟨p, hp, hpd⟩ := h2
      exact hint (List.any_eq_true.mpr ⟨p, hp, by rw [hpd]; exact hdc⟩)

theorem processRule_lookup_self (delta : Delta) (st : CollectState) (mw : Midwife)
    (rule : AttendantRule) :
    lookupD (processRule delta st mw rule).rem mw
      = lookupD st.rem mw ++ ruleRemovalIds delta rule
    ∧ lookupD (processRule delta st mw rule).new mw
      = lookupD st.new mw ++ ruleKeepDuties delta rule := by
  unfold processRule ruleRemovalIds ruleKeepDuties
  split_ifs with hint
  · exact foldl_processGroup_self delta mw (groupByEventId rule.event_by_duty) st
  · have hall := processRule_groups_unchanged hint
    constructor
    · rw [filterMap_removals_nil hall, List.append_nil]
    · rw [flatMap_keeps_nil hall, List.append_nil]

theorem processRule_lookup_ne (delta : Delta) (st : CollectState) (mw mw' : Midwife)
    (rule : AttendantRule) (h : mw' ≠ mw) :
    lookupD (processRule delta st mw rule).rem mw' = lookupD st.rem mw'
    ∧ lookupD (processRule delta st mw rule).new mw' = lookupD st.new mw' := by
  unfold processRule
  split_ifs with hint
  · exact foldl_processGroup_ne delta mw mw' h _ st
  · exact ⟨rfl, rfl⟩

theorem foldl_processRule_absent (delta : Delta) (mw : Midwife) :
    ∀ (rules : List (Midwife × AttendantRule)) (st : CollectState),
    mw ∉ rules.map Prod.fst →
    lookupD (rules.foldl (fun st p => processRule delta st p.1 p.2) st).rem mw
      = lookupD st.rem mw
    ∧ lookupD (rules.foldl (fun st p => processRule delta st p.1 p.2) st).new mw
      = lookupD st.new mw := by
  intro rules
  induction rules with
  | nil => intro st _; exact ⟨rfl, rfl⟩
  | cons p rest ih =>
    intro st hmem
    have hne : mw ≠ p.1 := fun h => hmem (by rw [List.map_cons]; exact h ▸ List.mem_cons_self _ _)
    have hrest : mw ∉ rest.map Prod.fst := fun h => hmem (by rw [List.map_cons]; exact List.mem_cons_of_mem _ h)
    simp only [List.foldl_cons]
    obtain ⟨h1, h2⟩ := ih (processRule delta st p.1 p.2) hrest
    obtain ⟨h3, h4⟩ := processRule_lookup_ne delta st p.1 mw p.2 hne
    exact ⟨h1.trans h3, h2.trans h4⟩

theorem extendAt_keys_mem {K V : Type} [DecidableEq K] (m : List (K × List V)) (k : K)
    (vs : List V) (x : K) :
    x ∈ (extendAt m k vs).map Prod.fst ↔ (x ∈ m.map Prod.fst ∨ x = k) := by
  induction m with
  | nil => simp [extendAt]
  | cons p rest ih =>
    obtain ⟨k0, vs0⟩ := p
    by_cases h0 : k = k0
    · subst h0
      rw [extendAt, if_pos rfl]
      simp only [List.map_cons, List.mem_cons]
      tauto
    · rw [extendAt, if_neg h0]
      simp only [List.map_cons, List.mem_cons, ih]
      tauto

theorem extendAt_keys_nodup {K V : Type} [DecidableEq K] (m : List (K × List V)) (k : K)
    (vs : List V) (h : (m.map Prod.fst).Nodup) : ((extendAt m k vs).map Prod.fst).Nodup := by
  induction m with
  | nil => simp [extendAt]
  | cons p rest ih =>
    obtain ⟨k0, vs0⟩ := p
    rw [List.map_cons, List.nodup_cons] at h
    by_cases h0 : k = k0
    · subst h0
      rw [extendAt, if_pos rfl, List.map_cons, List.nodup_cons]
      exact h
    · rw [extendAt, if_neg h0, List.map_cons, List.nodup_cons]
      refine ⟨?_, ih h.2⟩
      intro hmem
      rcases (extendAt_keys_mem rest k vs k0).mp hmem with hin | heq
      · exact h.1 hin
      · exact h0 heq.symm

theorem groupByEventId_keys_nodup (es : List (Duty × RemoteEvent)) :
    ((groupByEventId es).map Prod.fst).Nodup := by
  unfold groupByEventId
  suffices h : ∀ g0 : List (Nat × List Duty), (g0.map Prod.fst).Nodup →
      ((es.foldl (fun g p => extendAt g p.2.id [p.1]) g0).map Prod.fst).Nodup by
    exact h [] (by simp)
  induction es with
  | nil => intro g0 h0; simpa using h0
  | cons p rest ih =>
    intro g0 h0
    simp only [List.foldl_cons]
    exact ih _ (extendAt_keys_nodup g0 p.2.id [p.1] h0)

theorem keys_inj_of_nodup {gs : List (Nat × List Duty)} (h : (gs.map Prod.fst).Nodup)
    {g g' : Nat × List Duty} (hg : g ∈ gs) (hg' : g' ∈ gs) (he : g.1 = g'.1) : g = g' := by
  induction gs with
  | nil => exact absurd hg (List.not_mem_nil _)
  | cons a l ih =>
    rw [List.map_cons, List.nodup_cons] at h
    rcases List.mem_cons.mp hg with rfl | hgl
    · rcases List.mem_cons.mp hg' with rfl | hg'l
      · rfl
      · exfalso
        apply h.1
        rw [he]
        exact List.mem_map_of_mem Prod.fst hg'l
    · rcases List.mem_cons.mp hg' with rfl | hg'l
      · exfalso
        apply h.1
        rw [← he]
        exact List.mem_map_of_mem Prod.fst hgl
      · exact ih h.2 hgl hg'l

/-- C2: for every existing rule (under unique rule-by-person keys), step 1 of
`Upload` collects for that person exactly the event ids of the duty-grouped
events that contain at least one changed duty, and exactly the unchanged
duties of those events as re-adds; an event group none of whose duties is in
the delta is neither marked for deletion nor re-added. -/
theorem collect_removals_spec (att : AutoAttendant) (delta : Delta) (mw : Midwife)
    (rule : AttendantRule)
    (hmem : (mw, rule) ∈ att.rule_by_midwife)
    (hnd : (att.rule_by_midwife.map Prod.fst).Nodup) :
    lookupD (collectRemovals att delta).rem mw = ruleRemovalIds delta rule
    ∧ lookupD (collectRemovals att delta).new mw = ruleKeepDuties delta rule
    ∧ (∀ g ∈ groupByEventId rule.event_by_duty,
        (g.1 ∈ ruleRemovalIds delta rule ↔ g.2.any (dutyChanged delta) = true))
    ∧ (∀ d : Duty, d ∈ ruleKeepDuties delta rule ↔
        ∃ g ∈ groupByEventId rule.event_by_duty,
          g.2.any (dutyChanged delta) = true ∧ d ∈ g.2 ∧ dutyChanged delta d = false) := by
  obtain ⟨l1, l2, hsplit⟩ := List.append_of_mem hmem
  have hnd' : ((l1 ++ (mw, rule) :: l2).map Prod.fst).Nodup := by rw [← hsplit]; exact hnd
  rw [List.map_append, List.map_cons, List.nodup_append] at hnd'
  have h1 : mw ∉ l1.map Prod.fst := fun hmw => hnd'.2.2 hmw (List.mem_cons_self _ _)
  have h2 : mw ∉ l2.map Prod.fst := (List.nodup_cons.mp hnd'.2.1).1
  have hlook : lookupD (collectRemovals att delta).rem mw = ruleRemovalIds delta rule
      ∧ lookupD (collectRemovals att delta).new mw = ruleKeepDuties delta rule := by
    unfold collectRemovals
    rw [hsplit]
    simp only [List.foldl_append, List.foldl_cons]
    obtain ⟨ha, hb⟩ := foldl_processRule_absent delta mw l1 ⟨[], []⟩ h1
    obtain ⟨hc, hd2⟩ := processRule_lookup_self delta
      (l1.foldl (fun st p => processRule delta st p.1 p.2) ⟨[], []⟩) mw rule
    obtain ⟨he, hf⟩ := foldl_processRule_absent delta mw l2
      (processRule delta (l1.foldl (fun st p => processRule delta st p.1 p.2) ⟨[], []⟩) mw rule) h2
    constructor
    · rw [he, hc, ha]
      simp [lookupD]
    · rw [hf, hd2, hb]
      simp [lookupD]
  refine ⟨hlook.1, hlook.2, ?_, ?_⟩
  · intro g hg
    constructor
    · intro hmemid
      obtain ⟨g', hg', hsome⟩ := List.mem_filterMap.mp hmemid
      by_cases hany : g'.2.any (dutyChanged delta) = true
      · rw [if_pos hany] at hsome
        have heq : g' = g :=
          keys_inj_of_nodup (groupByEventId_keys_nodup _) hg' hg (Option.some.inj hsome)
        rw [← heq]
        exact hany
      · rw [if_neg hany] at hsome
        exact Option.noConfusion hsome
    · intro hany
      exact List.mem_filterMap.mpr ⟨g, hg, by rw [if_pos hany]⟩
  · intro d
    unfold ruleKeepDuties
    rw [List.mem_flatMap]
    constructor
    · rintro ⟨g, hg, hd⟩
      by_cases hany : g.2.any (dutyChanged delta) = true
      · rw [if_pos hany] at hd
        obtain ⟨hd2, hd3⟩ := List.mem_filter.mp hd
        exact ⟨g, hg, hany, hd2, by simpa using hd3⟩
      · rw [if_neg hany] at hd
        exact absurd hd (List.not_mem_nil d)
    · rintro ⟨g, hg, hany, hdg, hchg⟩
      exact ⟨g, hg, by rw [if_pos hany]; exact List.mem_filter.mpr ⟨hdg, by simp [hchg]⟩⟩

/-- C2 witness: in the five-day scenario, midwife A's single event is marked
for deletion and its eight unchanged duties are collected for re-adding. -/
theorem collect_removals_spec_witness :
    ((mwA, (⟨10, "A", 100, fiveDayDuties.map (fun d => (d, evFive))⟩ : AttendantRule))
        ∈ attFive.rule_by_midwife)
    ∧ lookupD (collectRemovals attFive deltaDayThree).rem mwA
        = ruleRemovalIds deltaDayThree ⟨10, "A", 100, fiveDayDuties.map (fun d => (d, evFive))⟩ :=
  ⟨by decide,
    (collect_removals_spec attFive deltaDayThree mwA
      ⟨10, "A", 100, fiveDayDuties.map (fun d => (d, evFive))⟩ (by decide) (by decide)).1⟩
